import Mathlib

/-
  Verification of the approximate string-matching engine of
  src/fuzzy_matcher.py (the FuzzyMatch repository).

  Strings are modelled as lists of Unicode code points (List Nat), the
  representation Python iterates over.  The best-match loop, the result
  rows and the summary metrics are translated from the source file
  (lines 57-105 and 124-135).  The four similarity scorers are provided
  by the external fuzzywuzzy dependency, whose code is not part of the
  repository; they are modelled from the specification, section 4.1.
-/

/-- Whitespace test on a code point: space, tab, line feed or carriage
return. -/
def isSpace (c : Nat) : Bool :=
  decide (c = 32 ∨ c = 9 ∨ c = 10 ∨ c = 13)

/-- Modelled from the spec: lowercasing of a single code point (ASCII
letters A-Z map to a-z, everything else is unchanged). -/
def lowerc (c : Nat) : Nat :=
  if 65 ≤ c ∧ c ≤ 90 then c + 32 else c

/-- Modelled from the spec: lowercasing of a string. -/
def toLower (s : List Nat) : List Nat := s.map lowerc

/-- Removal of leading whitespace. -/
def trimLeft (s : List Nat) : List Nat := s.dropWhile isSpace

/-- Removal of trailing whitespace. -/
def trimRight : List Nat → List Nat
  | [] => []
  | c :: cs =>
      let r := trimRight cs
      if r.isEmpty then (if isSpace c then [] else [c]) else c :: r

/-- Modelled from the spec: removal of leading and trailing whitespace. -/
def trim (s : List Nat) : List Nat := trimRight (trimLeft s)

/-- Modelled from the spec: collapsing of internal whitespace, every run
of consecutive whitespace characters is contracted to its last
character. -/
def collapse : List Nat → List Nat
  | [] => []
  | [c] => [c]
  | c :: d :: rest =>
      if isSpace c ∧ isSpace d then collapse (d :: rest)
      else c :: collapse (d :: rest)

/-- Accumulator-based splitting of a string into maximal runs of
non-whitespace characters; the accumulator holds the current word
reversed. -/
def wordsAux : List Nat → List Nat → List (List Nat)
  | cur, [] => if cur.isEmpty then [] else [cur.reverse]
  | cur, c :: cs =>
      if isSpace c then
        (if cur.isEmpty then wordsAux [] cs else cur.reverse :: wordsAux [] cs)
      else wordsAux (c :: cur) cs

/-- The whitespace-separated words of a string. -/
def words (s : List Nat) : List (List Nat) := wordsAux [] s

/-- Words rejoined with single spaces. -/
def joinToks (ws : List (List Nat)) : List Nat := List.intercalate [32] ws

/-- Modelled from the spec: the pre-processing normalization applied by
all four scorers - lowercase, trim and collapse internal whitespace
(realised as splitting into words and rejoining with single spaces). -/
def normText (s : List Nat) : List Nat := joinToks (words (toLower s))

/-- Modelled from the spec: Levenshtein edit distance with substitution
cost 2 and insertion/deletion cost 1. -/
def lev : List Nat → List Nat → Nat
  | [], ys => ys.length
  | xs, [] => xs.length
  | x :: xs, y :: ys =>
      if x = y then lev xs ys
      else
        Nat.min (Nat.min (1 + lev xs (y :: ys)) (1 + lev (x :: xs) ys))
          (2 + lev xs ys)

/-- Modelled from the spec: the Ratio similarity on already-normalized
strings, 100 * (1 - weighted_distance / total_length) rounded half-up to
the nearest integer. -/
def ratioScore (a b : List Nat) : Nat :=
  let t := a.length + b.length
  (200 * (t - lev a b) + t) / (2 * t)

/-- Modelled from the spec: Partial Ratio - slide the shorter string
over the longer one and take the maximal Ratio over all windows. -/
def partScore (a b : List Nat) : Nat :=
  let s := if a.length ≤ b.length then a else b
  let l := if a.length ≤ b.length then b else a
  ((List.range (l.length - s.length + 1)).map
      (fun i => ratioScore s ((l.drop i).take s.length))).foldl Nat.max 0

/-- Lexicographic comparison of words by code point. -/
def lexLe : List Nat → List Nat → Bool
  | [], _ => true
  | _ :: _, [] => false
  | x :: xs, y :: ys =>
      if x < y then true else if y < x then false else lexLe xs ys

/-- Insertion into a lexicographically sorted word list. -/
def insertTok (w : List Nat) : List (List Nat) → List (List Nat)
  | [] => [w]
  | v :: vs => if lexLe w v then w :: v :: vs else v :: insertTok w vs

/-- Insertion sort of a word list. -/
def sortToks (ws : List (List Nat)) : List (List Nat) :=
  ws.foldr insertTok []

/-- Modelled from the spec: Token Sort Ratio - tokenize, sort the tokens
alphabetically, rejoin with single spaces, then Ratio. -/
def tokenSortScore (a b : List Nat) : Nat :=
  ratioScore (joinToks (sortToks (words a))) (joinToks (sortToks (words b)))

/-- Modelled from the spec: Token Set Ratio - build the three
reconstructions from sorted token intersection and differences and take
the maximal pairwise Ratio. -/
def tokenSetScore (a b : List Nat) : Nat :=
  let ta := (words a).dedup
  let tb := (words b).dedup
  let inter := ta.filter (fun w => decide (w ∈ tb))
  let da := ta.filter (fun w => decide (w ∉ tb))
  let db := tb.filter (fun w => decide (w ∉ ta))
  let s0 := joinToks (sortToks inter)
  let s1 := joinToks (sortToks inter ++ sortToks da)
  let s2 := joinToks (sortToks inter ++ sortToks db)
  Nat.max (ratioScore s0 s1) (Nat.max (ratioScore s0 s2) (ratioScore s1 s2))

/-- The four selectable matching algorithms (source lines 43-47). -/
inductive Alg where
  | ratioAlg
  | partAlg
  | tokenSortAlg
  | tokenSetAlg
deriving DecidableEq

/-- Dispatch of the algorithm selector on already-normalized non-empty
strings (source lines 78-85 select among the four fuzz functions). -/
def scoreCore (alg : Alg) (a b : List Nat) : Nat :=
  match alg with
  | Alg.ratioAlg => ratioScore a b
  | Alg.partAlg => partScore a b
  | Alg.tokenSortAlg => tokenSortScore a b
  | Alg.tokenSetAlg => tokenSetScore a b

/-- Modelled from the spec: the full scorer contract - normText both
inputs, return 100 when both are empty after normalization, 0 when
exactly one is, and the selected algorithm on the normalized strings
otherwise. -/
def score (alg : Alg) (a b : List Nat) : Nat :=
  let na := normText a
  let nb := normText b
  if na = [] ∧ nb = [] then 100
  else if na = [] ∨ nb = [] then 0
  else scoreCore alg na nb

/-- The best-match cell of a result row: either a pool item or the
sentinel standing for the string "No match found" (source line 97). -/
inductive Cell where
  | noMatch
  | item (s : List Nat)
deriving DecidableEq

/-- The match status of a result row (source line 99). -/
inductive Status where
  | matched
  | unmatched
deriving DecidableEq

/-- One result row (source lines 95-100). -/
structure MatchRow where
  mainItem : List Nat
  bestMatch : Cell
  confidence : Nat
  status : Status
deriving DecidableEq

/-- Rendering of the best-match loop variable into the result cell:
Python renders "best_match if best_match else ..." at source line 97, so
both None and the empty string display as the sentinel. -/
def displayCell : Option (List Nat) → Cell
  | none => Cell.noMatch
  | some s => if s.isEmpty then Cell.noMatch else Cell.item s

/-- One step of the inner scan (source lines 88-90): a target replaces
the running best exactly when its score strictly exceeds the running
best score. -/
def bestStep (g : List Nat → Nat) (b : Option (List Nat) × Nat)
    (t : List Nat) : Option (List Nat) × Nat :=
  if g t > b.2 then (some t, g t) else b

/-- The inner scan over the target pool (source lines 72-90), starting
from best_match = None and best_score = 0. -/
def bestOf (g : List Nat → Nat) (pool : List (List Nat)) :
    Option (List Nat) × Nat :=
  pool.foldl (bestStep g) (none, 0)

/-- Assembly of one result row for one query item (source lines 92-100):
status is Match exactly when the best score reaches the threshold. -/
def mkRow (alg : Alg) (thr : Nat) (pool : List (List Nat))
    (q : List Nat) : MatchRow :=
  let r := bestOf (score alg q) pool
  { mainItem := q
    bestMatch := displayCell r.1
    confidence := r.2
    status := if r.2 ≥ thr then Status.matched else Status.unmatched }

/-- The top-level match loop (source lines 71-100): one row per query
item, in query order. -/
def runMatch (alg : Alg) (queries pool : List (List Nat)) (thr : Nat) :
    List MatchRow :=
  queries.map (mkRow alg thr pool)

/-- The mean confidence of the summary metrics (source line 134,
pandas mean of the confidence column).  On an empty result table the
column lookup fails (there is no column to average), modelled as none. -/
def summaryMean (rows : List MatchRow) : Option ℚ :=
  if rows.isEmpty then none
  else some ((rows.map (fun r => (r.confidence : ℚ))).sum / (rows.length : ℚ))

/-! ### Properties of the inner scan -/

/-- The running best score never decreases along the scan. -/
theorem bestFold_snd_mono (g : List Nat → Nat) (pool : List (List Nat)) :
    ∀ b : Option (List Nat) × Nat, b.2 ≤ (pool.foldl (bestStep g) b).2 := by
  induction pool with
  | nil => intro b; exact Nat.le_refl _
  | cons t rest ih =>
      intro b
      have h1 : b.2 ≤ (bestStep g b t).2 := by
        simp only [bestStep]
        split
        · exact Nat.le_of_lt (by assumption)
        · exact Nat.le_refl _
      exact Nat.le_trans h1 (ih (bestStep g b t))

/-- Every scanned score is bounded by the final best score. -/
theorem bestFold_snd_ub (g : List Nat → Nat) (pool : List (List Nat)) :
    ∀ (b : Option (List Nat) × Nat) (t : List Nat), t ∈ pool →
      g t ≤ (pool.foldl (bestStep g) b).2 := by
  induction pool with
  | nil => intro b t ht; cases ht
  | cons u rest ih =>
      intro b t ht
      rcases List.mem_cons.mp ht with h | h
      · subst h
        have h1 : g t ≤ (bestStep g b t).2 := by
          simp only [bestStep]
          split
          · exact Nat.le_refl _
          · exact Nat.le_of_not_lt (by assumption)
        exact Nat.le_trans h1 (bestFold_snd_mono g rest (bestStep g b t))
      · exact ih (bestStep g b u) t h

/-- The final best score is the initial one or one of the scanned
scores. -/
theorem bestFold_snd_cases (g : List Nat → Nat) (pool : List (List Nat)) :
    ∀ b : Option (List Nat) × Nat,
      (pool.foldl (bestStep g) b).2 = b.2 ∨
        ∃ t ∈ pool, g t = (pool.foldl (bestStep g) b).2 := by
  induction pool with
  | nil => intro b; exact Or.inl rfl
  | cons u rest ih =>
      intro b
      rcases ih (bestStep g b u) with h | h
      · simp only [List.foldl_cons]
        rw [h]
        simp only [bestStep]
        split
        · exact Or.inr ⟨u, List.mem_cons_self u rest, rfl⟩
        · exact Or.inl rfl
      · rcases h with ⟨t, ht, hgt⟩
        exact Or.inr ⟨t, List.mem_cons_of_mem u ht, hgt⟩

/-- If the final best score equals the initial one, the whole
accumulator is unchanged: no target was ever recorded. -/
theorem bestFold_id_of_snd_eq (g : List Nat → Nat) (pool : List (List Nat)) :
    ∀ b : Option (List Nat) × Nat,
      (pool.foldl (bestStep g) b).2 = b.2 → pool.foldl (bestStep g) b = b := by
  induction pool with
  | nil => intro b _; rfl
  | cons u rest ih =>
      intro b hb
      simp only [List.foldl_cons] at hb ⊢
      by_cases hu : g u > b.2
      · exfalso
        have h1 : (bestStep g b u).2 ≤ b.2 := by
          calc (bestStep g b u).2 ≤ (rest.foldl (bestStep g) (bestStep g b u)).2 :=
                bestFold_snd_mono g rest (bestStep g b u)
            _ = b.2 := hb
        simp only [bestStep, if_pos hu] at h1
        exact Nat.not_lt.mpr h1 hu
      · have hstep : bestStep g b u = b := by simp only [bestStep, if_neg hu]
        rw [hstep] at hb ⊢
        exact ih b hb

/-- Finding in a cons list whose head satisfies the predicate. -/
theorem find?_cons_true {α : Type} (p : α → Bool) (u : α) (rest : List α)
    (h : p u = true) : List.find? p (u :: rest) = some u := by
  simp [List.find?, h]

/-- Finding in a cons list whose head fails the predicate. -/
theorem find?_cons_false {α : Type} (p : α → Bool) (u : α) (rest : List α)
    (h : p u = false) : List.find? p (u :: rest) = List.find? p rest := by
  simp [List.find?, h]

/-- If the best score strictly improved over the scan, the recorded
target is the first pool item achieving the final best score: a later
item with an equal score never replaces it. -/
theorem bestFold_fst_winner (g : List Nat → Nat) (pool : List (List Nat)) :
    ∀ (b : Option (List Nat) × Nat) (w : List Nat),
      b.2 < (pool.foldl (bestStep g) b).2 →
      pool.find? (fun t => g t == (pool.foldl (bestStep g) b).2) = some w →
      (pool.foldl (bestStep g) b).1 = some w := by
  induction pool with
  | nil => intro b w hb _; exact absurd hb (Nat.lt_irrefl _)
  | cons u rest ih =>
      intro b w hb hfind
      simp only [List.foldl_cons] at hb hfind ⊢
      cases hbeq : g u == (rest.foldl (bestStep g) (bestStep g b u)).2 with
      | true =>
          have hEq := @find?_cons_true (List Nat)
            (fun t => g t == (rest.foldl (bestStep g) (bestStep g b u)).2)
            u rest hbeq
          rw [hEq] at hfind
          injection hfind with hw
          subst hw
          have hgu : g u = (rest.foldl (bestStep g) (bestStep g b u)).2 := by
            simpa using hbeq
          have hbu : g u > b.2 := by rw [hgu]; exact hb
          have hstep : bestStep g b u = (some u, g u) := by
            simp only [bestStep, if_pos hbu]
          rw [hstep] at hgu ⊢
          have hid := bestFold_id_of_snd_eq g rest (some u, g u) hgu.symm
          rw [hid]
      | false =>
          have hEq := @find?_cons_false (List Nat)
            (fun t => g t == (rest.foldl (bestStep g) (bestStep g b u)).2)
            u rest hbeq
          rw [hEq] at hfind
          have hne : g u ≠ (rest.foldl (bestStep g) (bestStep g b u)).2 := by
            simpa using hbeq
          by_cases hbu : g u > b.2
          · have hstep : bestStep g b u = (some u, g u) := by
              simp only [bestStep, if_pos hbu]
            rw [hstep] at hfind hne ⊢
            have hmono := bestFold_snd_mono g rest (some u, g u)
            exact ih (some u, g u) w (Nat.lt_of_le_of_ne hmono hne) hfind
          · have hstep : bestStep g b u = b := by
              simp only [bestStep, if_neg hbu]
            rw [hstep] at hb hfind ⊢
            exact ih b w hb hfind

/-! ### Properties of the normalization -/

/-- Non-whitespace test. -/
def nonSpace (c : Nat) : Bool := !(isSpace c)

/-- Lowercasing does not change whether a code point is whitespace. -/
theorem isSpace_lowerc (c : Nat) : isSpace (lowerc c) = isSpace c := by
  simp only [lowerc, isSpace]
  split_ifs with h
  · rw [decide_eq_decide]
    omega
  · rfl

/-- Lowercasing is idempotent on code points. -/
theorem lowerc_idem (c : Nat) : lowerc (lowerc c) = lowerc c := by
  simp only [lowerc]
  split_ifs <;> omega

/-- A word starting with whitespace contributes nothing. -/
theorem words_cons_space (c : Nat) (cs : List Nat) (h : isSpace c = true) :
    words (c :: cs) = words cs := by
  simp [words, wordsAux, h]

/-- Closed form of the splitting helper on a non-empty accumulator. -/
theorem wordsAux_ne_nil (cs : List Nat) : ∀ cur : List Nat, cur ≠ [] →
    wordsAux cur cs =
      (cur.reverse ++ cs.takeWhile nonSpace) ::
        words (cs.dropWhile nonSpace) := by
  induction cs with
  | nil =>
      intro cur hcur
      have he : cur.isEmpty = false := by
        cases cur with
        | nil => exact absurd rfl hcur
        | cons a as => rfl
      simp [wordsAux, he, words]
  | cons c cs ihc =>
      intro cur hcur
      have he : cur.isEmpty = false := by
        cases cur with
        | nil => exact absurd rfl hcur
        | cons a as => rfl
      cases hsp : isSpace c with
      | true =>
          have hns : nonSpace c = false := by simp [nonSpace, hsp]
          simp [wordsAux, hsp, he, List.takeWhile_cons, List.dropWhile_cons,
            hns, words_cons_space c cs hsp, words]
      | false =>
          have hns : nonSpace c = true := by simp [nonSpace, hsp]
          have hstep : wordsAux cur (c :: cs) = wordsAux (c :: cur) cs := by
            simp [wordsAux, hsp]
          rw [hstep, ihc (c :: cur) (List.cons_ne_nil c cur)]
          simp [List.takeWhile_cons, List.dropWhile_cons, hns,
            List.append_assoc]

/-- Splitting a string that starts with a non-whitespace character:
the first word is the maximal non-whitespace run. -/
theorem words_cons_nonspace (c : Nat) (cs : List Nat)
    (h : isSpace c = false) :
    words (c :: cs) =
      (c :: cs.takeWhile nonSpace) :: words (cs.dropWhile nonSpace) := by
  have h1 : words (c :: cs) = wordsAux [c] cs := by
    simp [words, wordsAux, h]
  rw [h1, wordsAux_ne_nil cs [c] (List.cons_ne_nil c [])]
  simp

/-- A string trims (on the right) to empty exactly when it is all
whitespace. -/
theorem trimRight_eq_nil_iff (s : List Nat) :
    trimRight s = [] ↔ ∀ c ∈ s, isSpace c = true := by
  induction s with
  | nil => simp [trimRight]
  | cons c cs ih =>
      have hdef : trimRight (c :: cs) =
          if (trimRight cs).isEmpty then (if isSpace c then [] else [c])
          else c :: trimRight cs := rfl
      rw [hdef]
      split_ifs with h1 h2
      · simp only [List.mem_cons, true_iff]
        intro d hd
        rcases hd with hd | hd
        · subst hd; exact h2
        · exact (ih.mp (List.isEmpty_iff.mp h1)) d hd
      · exact iff_of_false (by simp)
          (fun hall => h2 (hall c (List.mem_cons_self c cs)))
      · exact iff_of_false (by simp)
          (fun hall => h1 (List.isEmpty_iff.mpr
            (ih.mpr (fun d hd => hall d (List.mem_cons_of_mem c hd)))))

/-- Right-trimming does not change the maximal non-whitespace prefix. -/
theorem takeWhile_trimRight (s : List Nat) :
    (trimRight s).takeWhile nonSpace = s.takeWhile nonSpace := by
  induction s with
  | nil => rfl
  | cons c cs ih =>
      have hdef : trimRight (c :: cs) =
          if (trimRight cs).isEmpty then (if isSpace c then [] else [c])
          else c :: trimRight cs := rfl
      rw [hdef]
      split_ifs with h1 h2
      · have hns : nonSpace c = false := by simp [nonSpace, h2]
        simp [List.takeWhile_cons, hns]
      · have hns : nonSpace c = true := by simp [nonSpace, h2]
        have hall : ∀ d ∈ cs, isSpace d = true :=
          (trimRight_eq_nil_iff cs).mp (List.isEmpty_iff.mp h1)
        have hcs : cs.takeWhile nonSpace = [] := by
          cases cs with
          | nil => rfl
          | cons d ds =>
              have : nonSpace d = false := by
                simp [nonSpace, hall d (List.mem_cons_self d ds)]
              simp [List.takeWhile_cons, this]
        simp [List.takeWhile_cons, hns, hcs]
      · cases hsp : isSpace c with
        | true =>
            have hns : nonSpace c = false := by simp [nonSpace, hsp]
            simp [List.takeWhile_cons, hns]
        | false =>
            have hns : nonSpace c = true := by simp [nonSpace, hsp]
            simp [List.takeWhile_cons, hns, ih]

/-- Right-trimming commutes with dropping the maximal non-whitespace
prefix. -/
theorem dropWhile_trimRight (s : List Nat) :
    (trimRight s).dropWhile nonSpace = trimRight (s.dropWhile nonSpace) := by
  induction s with
  | nil => rfl
  | cons c cs ih =>
      have hdef : trimRight (c :: cs) =
          if (trimRight cs).isEmpty then (if isSpace c then [] else [c])
          else c :: trimRight cs := rfl
      rw [hdef]
      split_ifs with h1 h2
      · have hns : nonSpace c = false := by simp [nonSpace, h2]
        simp [List.dropWhile_cons, hns, hdef, h1, h2]
      · have hns : nonSpace c = true := by simp [nonSpace, h2]
        have hnil : trimRight cs = [] := List.isEmpty_iff.mp h1
        have hall : ∀ d ∈ cs, isSpace d = true :=
          (trimRight_eq_nil_iff cs).mp hnil
        have hcs : cs.dropWhile nonSpace = cs := by
          cases cs with
          | nil => rfl
          | cons d ds =>
              have : nonSpace d = false := by
                simp [nonSpace, hall d (List.mem_cons_self d ds)]
              simp [List.dropWhile_cons, this]
        simp [List.dropWhile_cons, hns, hcs, hnil]
      · cases hsp : isSpace c with
        | true =>
            have hns : nonSpace c = false := by simp [nonSpace, hsp]
            simp [List.dropWhile_cons, hns, hdef, h1, hsp]
        | false =>
            have hns : nonSpace c = true := by simp [nonSpace, hsp]
            simp [List.dropWhile_cons, hns, ih]

/-- Collapsing whitespace does not change the maximal non-whitespace
prefix. -/
theorem takeWhile_collapse (s : List Nat) :
    (collapse s).takeWhile nonSpace = s.takeWhile nonSpace := by
  induction s with
  | nil => rfl
  | cons c cs ih =>
      cases cs with
      | nil => rfl
      | cons d rest =>
          have hdef : collapse (c :: d :: rest) =
              if isSpace c ∧ isSpace d then collapse (d :: rest)
              else c :: collapse (d :: rest) := rfl
          rw [hdef]
          split_ifs with h
          · obtain ⟨hc, hd⟩ := h
            have hnsc : nonSpace c = false := by simp [nonSpace, hc]
            have hnsd : nonSpace d = false := by simp [nonSpace, hd]
            rw [ih]
            simp [List.takeWhile_cons, hnsc, hnsd]
          · cases hc : isSpace c with
            | true =>
                have hnsc : nonSpace c = false := by simp [nonSpace, hc]
                simp [List.takeWhile_cons, hnsc]
            | false =>
                have hnsc : nonSpace c = true := by simp [nonSpace, hc]
                simp [List.takeWhile_cons, hnsc, ih]

/-- Collapsing whitespace commutes with dropping the maximal
non-whitespace prefix. -/
theorem dropWhile_collapse (s : List Nat) :
    (collapse s).dropWhile nonSpace = collapse (s.dropWhile nonSpace) := by
  induction s with
  | nil => rfl
  | cons c cs ih =>
      cases cs with
      | nil =>
          cases hc : isSpace c with
          | true =>
              have hnsc : nonSpace c = false := by simp [nonSpace, hc]
              simp [collapse, List.dropWhile_cons, hnsc]
          | false =>
              have hnsc : nonSpace c = true := by simp [nonSpace, hc]
              simp [collapse, List.dropWhile_cons, hnsc]
      | cons d rest =>
          have hdef : collapse (c :: d :: rest) =
              if isSpace c ∧ isSpace d then collapse (d :: rest)
              else c :: collapse (d :: rest) := rfl
          rw [hdef]
          split_ifs with h
          · obtain ⟨hc, hd⟩ := h
            have hnsc : nonSpace c = false := by simp [nonSpace, hc]
            have hnsd : nonSpace d = false := by simp [nonSpace, hd]
            rw [ih]
            simp [List.dropWhile_cons, hnsc, hnsd, hdef, hc, hd]
          · cases hc : isSpace c with
            | true =>
                have hnsc : nonSpace c = false := by simp [nonSpace, hc]
                simp [List.dropWhile_cons, hnsc, hdef, h]
            | false =>
                have hnsc : nonSpace c = true := by simp [nonSpace, hc]
                simp [List.dropWhile_cons, hnsc, ih]

/-- Left-trimming does not change the word decomposition. -/
theorem words_trimLeft (s : List Nat) : words (trimLeft s) = words s := by
  induction s with
  | nil => rfl
  | cons c cs ih =>
      cases hc : isSpace c with
      | true =>
          have h1 : trimLeft (c :: cs) = trimLeft cs := by
            simp [trimLeft, List.dropWhile_cons, hc]
          rw [h1, ih, words_cons_space c cs hc]
      | false =>
          have h1 : trimLeft (c :: cs) = c :: cs := by
            simp [trimLeft, List.dropWhile_cons, hc]
          rw [h1]

/-- Dropping a prefix can only shorten a list. -/
theorem length_dropWhile_le (p : Nat → Bool) (l : List Nat) :
    (l.dropWhile p).length ≤ l.length := by
  induction l with
  | nil => exact Nat.le_refl _
  | cons c cs ih =>
      rw [List.dropWhile_cons]
      split_ifs
      · exact Nat.le_trans ih (by simp)
      · exact Nat.le_refl _

/-- Right-trimming does not change the word decomposition (fuel-indexed
induction on the length). -/
theorem words_trimRight_fuel :
    ∀ n : Nat, ∀ s : List Nat, s.length ≤ n →
      words (trimRight s) = words s := by
  intro n
  induction n with
  | zero =>
      intro s hs
      have h0 : s = [] := List.length_eq_zero.mp (Nat.le_zero.mp hs)
      subst h0; rfl
  | succ n ihn =>
      intro s hs
      cases s with
      | nil => rfl
      | cons c cs =>
          have hlen : cs.length ≤ n := by
            simp only [List.length_cons] at hs
            omega
          have hdef : trimRight (c :: cs) =
              if (trimRight cs).isEmpty then (if isSpace c then [] else [c])
              else c :: trimRight cs := rfl
          rw [hdef]
          split_ifs with h1 h2
          · have hnil : trimRight cs = [] := List.isEmpty_iff.mp h1
            have hcs := ihn cs hlen
            rw [hnil] at hcs
            rw [words_cons_space c cs h2, ← hcs]
          · have hnil : trimRight cs = [] := List.isEmpty_iff.mp h1
            have hc : isSpace c = false := by
              cases hval : isSpace c with
              | true => exact absurd hval h2
              | false => rfl
            have hall : ∀ d ∈ cs, isSpace d = true :=
              (trimRight_eq_nil_iff cs).mp hnil
            have hwcs : words cs = [] := by
              have := ihn cs hlen
              rw [hnil] at this
              exact this.symm
            have htk : cs.takeWhile nonSpace = [] := by
              cases cs with
              | nil => rfl
              | cons d ds =>
                  have : nonSpace d = false := by
                    simp [nonSpace, hall d (List.mem_cons_self d ds)]
                  simp [List.takeWhile_cons, this]
            have hdp : cs.dropWhile nonSpace = cs := by
              cases cs with
              | nil => rfl
              | cons d ds =>
                  have : nonSpace d = false := by
                    simp [nonSpace, hall d (List.mem_cons_self d ds)]
                  simp [List.dropWhile_cons, this]
            rw [words_cons_nonspace c [] hc, words_cons_nonspace c cs hc,
              htk, hdp, hwcs]
            rfl
          · cases hc : isSpace c with
            | true =>
                rw [words_cons_space c _ hc, ihn cs hlen,
                  words_cons_space c cs hc]
            | false =>
                rw [words_cons_nonspace c _ hc, words_cons_nonspace c cs hc,
                  takeWhile_trimRight cs, dropWhile_trimRight cs]
                congr 1
                exact ihn (cs.dropWhile nonSpace)
                  (Nat.le_trans (length_dropWhile_le _ _) hlen)

/-- Right-trimming does not change the word decomposition. -/
theorem words_trimRight (s : List Nat) : words (trimRight s) = words s :=
  words_trimRight_fuel s.length s (Nat.le_refl _)

/-- Collapsing internal whitespace does not change the word
decomposition (fuel-indexed induction on the length). -/
theorem words_collapse_fuel :
    ∀ n : Nat, ∀ s : List Nat, s.length ≤ n →
      words (collapse s) = words s := by
  intro n
  induction n with
  | zero =>
      intro s hs
      have h0 : s = [] := List.length_eq_zero.mp (Nat.le_zero.mp hs)
      subst h0; rfl
  | succ n ihn =>
      intro s hs
      cases s with
      | nil => rfl
      | cons c cs =>
          cases cs with
          | nil => rfl
          | cons d rest =>
              have hlen : (d :: rest).length ≤ n := by
                simp only [List.length_cons] at hs ⊢
                omega
              have hdef : collapse (c :: d :: rest) =
                  if isSpace c ∧ isSpace d then collapse (d :: rest)
                  else c :: collapse (d :: rest) := rfl
              rw [hdef]
              split_ifs with h
              · obtain ⟨hc, hd⟩ := h
                rw [ihn (d :: rest) hlen, words_cons_space c _ hc]
              · cases hc : isSpace c with
                | true =>
                    rw [words_cons_space c _ hc, ihn (d :: rest) hlen,
                      words_cons_space c _ hc]
                | false =>
                    rw [words_cons_nonspace c _ hc,
                      words_cons_nonspace c (d :: rest) hc,
                      takeWhile_collapse (d :: rest),
                      dropWhile_collapse (d :: rest)]
                    congr 1
                    exact ihn ((d :: rest).dropWhile nonSpace)
                      (Nat.le_trans (length_dropWhile_le _ _) hlen)

/-- Collapsing internal whitespace does not change the word
decomposition. -/
theorem words_collapse (s : List Nat) : words (collapse s) = words s :=
  words_collapse_fuel s.length s (Nat.le_refl _)

/-- Lowercasing commutes with left-trimming. -/
theorem toLower_trimLeft (s : List Nat) :
    toLower (trimLeft s) = trimLeft (toLower s) := by
  induction s with
  | nil => rfl
  | cons c cs ih =>
      simp only [trimLeft, toLower] at ih ⊢
      cases hc : isSpace c with
      | true =>
          simp [List.dropWhile_cons, List.map_cons, hc, isSpace_lowerc, ih]
      | false =>
          simp [List.dropWhile_cons, List.map_cons, hc, isSpace_lowerc]

/-- Lowercasing commutes with right-trimming. -/
theorem toLower_trimRight (s : List Nat) :
    toLower (trimRight s) = trimRight (toLower s) := by
  induction s with
  | nil => rfl
  | cons c cs ih =>
      have hdefL : trimRight (c :: cs) =
          if (trimRight cs).isEmpty then (if isSpace c then [] else [c])
          else c :: trimRight cs := rfl
      have hdefR : trimRight (lowerc c :: toLower cs) =
          if (trimRight (toLower cs)).isEmpty then
            (if isSpace (lowerc c) then [] else [lowerc c])
          else lowerc c :: trimRight (toLower cs) := rfl
      have hmap : toLower (c :: cs) = lowerc c :: toLower cs := rfl
      rw [hmap, hdefL, hdefR, ← ih, isSpace_lowerc]
      have hiso : (toLower (trimRight cs)).isEmpty = (trimRight cs).isEmpty := by
        cases htr : trimRight cs <;> simp [toLower]
      rw [hiso]
      split_ifs <;> simp [toLower]

/-- Lowercasing commutes with collapsing internal whitespace. -/
theorem toLower_collapse (s : List Nat) :
    toLower (collapse s) = collapse (toLower s) := by
  induction s with
  | nil => rfl
  | cons c cs ih =>
      cases cs with
      | nil => rfl
      | cons d rest =>
          have hdefL : collapse (c :: d :: rest) =
              if isSpace c ∧ isSpace d then collapse (d :: rest)
              else c :: collapse (d :: rest) := rfl
          have hdefR : collapse (lowerc c :: lowerc d :: toLower rest) =
              if isSpace (lowerc c) ∧ isSpace (lowerc d) then
                collapse (lowerc d :: toLower rest)
              else lowerc c :: collapse (lowerc d :: toLower rest) := rfl
          have hmap : toLower (c :: d :: rest) =
              lowerc c :: lowerc d :: toLower rest := rfl
          have hmap2 : toLower (d :: rest) = lowerc d :: toLower rest := rfl
          rw [hmap, hdefL, hdefR, isSpace_lowerc, isSpace_lowerc]
          rw [hmap2] at ih
          split_ifs
          · simpa [toLower] using ih
          · simp only [toLower] at ih ⊢
            simp [ih]

/-- The normalization absorbs a prior lowercasing of its input. -/
theorem normText_toLower (s : List Nat) :
    normText (toLower s) = normText s := by
  simp only [normText, toLower, List.map_map]
  have h : lowerc ∘ lowerc = lowerc := funext lowerc_idem
  rw [h]

/-- The normalization absorbs a prior trimming of its input. -/
theorem normText_trim (s : List Nat) : normText (trim s) = normText s := by
  simp only [normText, trim]
  rw [toLower_trimRight, toLower_trimLeft, words_trimRight, words_trimLeft]

/-- The normalization absorbs a prior whitespace-collapse of its
input. -/
theorem normText_collapse (s : List Nat) :
    normText (collapse s) = normText s := by
  simp only [normText]
  rw [toLower_collapse, words_collapse]

/-- The scorer only sees its first argument through the
normalization. -/
theorem score_congr_left (alg : Alg) (a1 a2 b : List Nat)
    (h : normText a1 = normText a2) : score alg a1 b = score alg a2 b := by
  simp only [score, h]

/-- The scorer only sees its second argument through the
normalization. -/
theorem score_congr_right (alg : Alg) (a b1 b2 : List Nat)
    (h : normText b1 = normText b2) : score alg a b1 = score alg a b2 := by
  simp only [score, h]

/-! ### Symmetry of the Ratio scorer -/

/-- The weighted edit distance to the empty string is the length. -/
theorem lev_nil_right (ys : List Nat) : lev ys [] = ys.length := by
  cases ys <;> simp [lev]

/-- The weighted edit distance is symmetric. -/
theorem lev_symm (a b : List Nat) : lev a b = lev b a := by
  induction a, b using lev.induct with
  | case1 ys => simp [lev, lev_nil_right]
  | case2 xs => simp [lev, lev_nil_right]
  | case3 xs y ys ih => simp [lev, ih]
  | case4 x xs y ys h ih1 ih2 ih3 =>
      have hyx : ¬ y = x := fun hh => h hh.symm
      rw [show lev (x :: xs) (y :: ys) =
            Nat.min (Nat.min (1 + lev xs (y :: ys)) (1 + lev (x :: xs) ys))
              (2 + lev xs ys) from by simp [lev, h],
          show lev (y :: ys) (x :: xs) =
            Nat.min (Nat.min (1 + lev ys (x :: xs)) (1 + lev (y :: ys) xs))
              (2 + lev ys xs) from by simp [lev, hyx],
          ih1, ih2, ih3]
      simp only [Nat.min_def]
      split_ifs <;> omega

/-- The Ratio formula is symmetric. -/
theorem ratioScore_symm (a b : List Nat) : ratioScore a b = ratioScore b a := by
  simp only [ratioScore, lev_symm a b, Nat.add_comm a.length b.length]

/-! ### Claims -/

/-- Claim C6: for every pair of strings and every one of the four
algorithms, the similarity score is invariant under lowercasing,
leading/trailing-whitespace trimming, and collapsing of internal
whitespace of either input, because all four algorithms apply this
normalization before scoring. -/
theorem claim_c6_normalization_invariance (alg : Alg) (a b : List Nat) :
    score alg (toLower a) b = score alg a b ∧
    score alg (trim a) b = score alg a b ∧
    score alg (collapse a) b = score alg a b ∧
    score alg a (toLower b) = score alg a b ∧
    score alg a (trim b) = score alg a b ∧
    score alg a (collapse b) = score alg a b :=
  ⟨score_congr_left alg _ _ b (normText_toLower a),
   score_congr_left alg _ _ b (normText_trim a),
   score_congr_left alg _ _ b (normText_collapse a),
   score_congr_right alg a _ _ (normText_toLower b),
   score_congr_right alg a _ _ (normText_trim b),
   score_congr_right alg a _ _ (normText_collapse b)⟩

/-- Claim C7, counterexample: the single-space string is non-empty, yet
its score against the empty string is 100, not 0, because it normalizes
to the empty string. -/
theorem claim_c7_counterexample :
    [32] ≠ ([] : List Nat) ∧ score Alg.ratioAlg [32] [] = 100 :=
  ⟨by decide, by decide⟩

/-- Claim C7, amended: for every string a and every algorithm, the score
of a against the empty string is 0 when a normalizes to a non-empty
string, and 100 when a normalizes to the empty string (that is, when a
is empty or consists only of whitespace). -/
theorem claim_c7_empty_target (alg : Alg) (a : List Nat) :
    score alg a [] = if normText a = [] then 100 else 0 := by
  have hnil : normText [] = [] := rfl
  by_cases h : normText a = [] <;> simp [score, h, hnil]

/-- Claim C8: the Ratio algorithm is symmetric. -/
theorem claim_c8_ratio_symm (a b : List Nat) :
    score Alg.ratioAlg a b = score Alg.ratioAlg b a := by
  by_cases ha : normText a = [] <;> by_cases hb : normText b = [] <;>
    simp [score, scoreCore, ha, hb, ratioScore_symm]

/-- Claim C2, counterexample: with an empty pool and threshold 0 the
produced row has status Match, not NoMatch, because the comparison
0 >= 0 holds at source line 93. -/
theorem claim_c2_counterexample :
    (runMatch Alg.ratioAlg [[97]] [] 0).map MatchRow.status =
      [Status.matched] := by decide

/-- Claim C2, amended: with an empty pool every produced row carries the
sentinel best match and score 0; its status is NoMatch for every
threshold of at least 1, but Match for threshold 0 (score 0 reaches a
zero threshold). -/
theorem claim_c2_empty_pool (alg : Alg) (queries : List (List Nat))
    (thr : Nat) :
    runMatch alg queries [] thr =
      queries.map (fun q =>
        { mainItem := q, bestMatch := Cell.noMatch, confidence := 0,
          status := if thr = 0 then Status.matched
            else Status.unmatched }) := by
  have h : mkRow alg thr [] =
      fun q => ({ mainItem := q, bestMatch := Cell.noMatch,
                  confidence := 0,
                  status := (if thr = 0 then Status.matched
                    else Status.unmatched) } : MatchRow) := by
    funext q
    have h1 : mkRow alg thr [] q =
        { mainItem := q, bestMatch := Cell.noMatch, confidence := 0,
          status := (if 0 ≥ thr then Status.matched else Status.unmatched) } :=
      rfl
    rw [h1]
    by_cases h2 : thr = 0 <;> simp [h2, Nat.le_zero]
  simp only [runMatch, h]

/-- Claim C3: for every produced row, the status is Match exactly when
the confidence reaches the threshold. -/
theorem claim_c3_status_iff_threshold (alg : Alg)
    (queries pool : List (List Nat)) (thr : Nat) (hthr : thr ≤ 100)
    (row : MatchRow) (hrow : row ∈ runMatch alg queries pool thr) :
    row.status = Status.matched ↔ thr ≤ row.confidence := by
  rcases List.mem_map.mp hrow with ⟨q, hq, hmk⟩
  subst hmk
  simp only [mkRow]
  by_cases h : (bestOf (score alg q) pool).2 ≥ thr
  · simp [h]
  · simp [h]

/-- Claim C3, witness: a concrete run with an empty pool and threshold
80, whose single row has status NoMatch and confidence 0. -/
theorem claim_c3_witness :
    (80 ≤ 100 ∧
      (⟨[97], Cell.noMatch, 0, Status.unmatched⟩ : MatchRow) ∈
        runMatch Alg.ratioAlg [[97]] [] 80) ∧
    ((⟨[97], Cell.noMatch, 0, Status.unmatched⟩ : MatchRow).status =
        Status.matched ↔
      80 ≤ (⟨[97], Cell.noMatch, 0, Status.unmatched⟩ : MatchRow).confidence) :=
  ⟨⟨by decide, by decide⟩,
   claim_c3_status_iff_threshold Alg.ratioAlg [[97]] [] 80 (by decide)
     ⟨[97], Cell.noMatch, 0, Status.unmatched⟩ (by decide)⟩

/-- Claim C4: the output has exactly one row per query, in query order,
for any pool including the empty one. -/
theorem claim_c4_alignment (alg : Alg) (queries pool : List (List Nat))
    (thr : Nat) :
    (runMatch alg queries pool thr).length = queries.length ∧
    ∀ i : Nat,
      ((runMatch alg queries pool thr)[i]?).map MatchRow.mainItem =
        queries[i]? := by
  constructor
  · simp [runMatch]
  · intro i
    simp only [runMatch, List.getElem?_map]
    cases queries[i]? with
    | none => rfl
    | some q => rfl

/-- A concrete scorer evaluation: two distinct single characters score
0 under Ratio (weighted distance 2 over total length 2). -/
theorem score_one_char_mismatch : score Alg.ratioAlg [97] [98] = 0 := by
  have h1 : lev [97] [98] = 2 := by simp [lev]
  have h2 : ratioScore [97] [98] = 0 := by simp [ratioScore, h1]
  have h3 : normText [97] = [97] := by decide
  have h4 : normText [98] = [98] := by decide
  simp [score, h3, h4, scoreCore, h2]

/-- Claim C1, amended: for a non-empty pool the reported confidence is
the maximum pool score; when that maximum is positive the reported best
match is the first pool item achieving it (a later equal score never
replaces it) unless that item is the empty string, and when the maximum
is 0 the sentinel is reported, because a target is only recorded when
its score strictly exceeds the running best, initialized to 0. -/
theorem claim_c1_best_match (alg : Alg) (q : List Nat)
    (pool : List (List Nat)) (thr : Nat) (hp : pool ≠ []) :
    (∀ t ∈ pool, score alg q t ≤ (mkRow alg thr pool q).confidence) ∧
    (∃ t ∈ pool, score alg q t = (mkRow alg thr pool q).confidence) ∧
    (∀ w : List Nat,
      pool.find?
          (fun t => score alg q t == (mkRow alg thr pool q).confidence) =
        some w →
      (mkRow alg thr pool q).bestMatch =
        if (mkRow alg thr pool q).confidence = 0 ∨ w = [] then Cell.noMatch
        else Cell.item w) := by
  have hconf : (mkRow alg thr pool q).confidence =
      (pool.foldl (bestStep (score alg q)) (none, 0)).2 := rfl
  have hbm : (mkRow alg thr pool q).bestMatch =
      displayCell (pool.foldl (bestStep (score alg q)) (none, 0)).1 := rfl
  refine ⟨?_, ?_, ?_⟩
  · intro t ht
    rw [hconf]
    exact bestFold_snd_ub (score alg q) pool (none, 0) t ht
  · rw [hconf]
    rcases bestFold_snd_cases (score alg q) pool (none, 0) with h | h
    · have h0 : (pool.foldl (bestStep (score alg q)) (none, 0)).2 = 0 := h
      cases pool with
      | nil => exact absurd rfl hp
      | cons t rest =>
          refine ⟨t, List.mem_cons_self t rest, ?_⟩
          have hub := bestFold_snd_ub (score alg q) (t :: rest) (none, 0) t
            (List.mem_cons_self t rest)
          omega
    · exact h
  · intro w hfind
    rw [hconf] at hfind ⊢
    rw [hbm]
    by_cases h0 : (pool.foldl (bestStep (score alg q)) (none, 0)).2 = 0
    · rw [if_pos (Or.inl h0)]
      have hid := bestFold_id_of_snd_eq (score alg q) pool (none, 0) h0
      rw [hid]
      rfl
    · have hpos : 0 < (pool.foldl (bestStep (score alg q)) (none, 0)).2 :=
        Nat.pos_of_ne_zero h0
      have hwin := bestFold_fst_winner (score alg q) pool (none, 0) w
        hpos hfind
      rw [hwin]
      by_cases hw : w = []
      · rw [if_pos (Or.inr hw)]
        simp [displayCell, hw]
      · rw [if_neg (by tauto)]
        simp [displayCell, List.isEmpty_iff, hw]

/-- Claim C1, counterexample: querying the single character a against
the one-item pool containing b, the only pool item achieves the maximal
score (0), yet the reported best match is the sentinel rather than that
first maximal pool item. -/
theorem claim_c1_counterexample :
    (mkRow Alg.ratioAlg 80 [[98]] [97]).confidence =
      score Alg.ratioAlg [97] [98] ∧
    (mkRow Alg.ratioAlg 80 [[98]] [97]).bestMatch = Cell.noMatch := by
  have h := score_one_char_mismatch
  constructor
  · have hc : (mkRow Alg.ratioAlg 80 [[98]] [97]).confidence =
        ([[98]].foldl (bestStep (score Alg.ratioAlg [97])) (none, 0)).2 := rfl
    rw [hc, h]
    simp [bestStep, h]
  · have hb : (mkRow Alg.ratioAlg 80 [[98]] [97]).bestMatch =
        displayCell
          ([[98]].foldl (bestStep (score Alg.ratioAlg [97])) (none, 0)).1 :=
      rfl
    rw [hb]
    simp [bestStep, h, displayCell]

/-- Claim C1, witness: the amended claim instantiated at a concrete
two-item pool. -/
theorem claim_c1_witness :
    ([[97], [98]] ≠ ([] : List (List Nat))) ∧
    ((∀ t ∈ [[97], [98]],
        score Alg.ratioAlg [97] t ≤
          (mkRow Alg.ratioAlg 80 [[97], [98]] [97]).confidence) ∧
     (∃ t ∈ [[97], [98]],
        score Alg.ratioAlg [97] t =
          (mkRow Alg.ratioAlg 80 [[97], [98]] [97]).confidence) ∧
     (∀ w : List Nat,
        [[97], [98]].find?
            (fun t => score Alg.ratioAlg [97] t ==
              (mkRow Alg.ratioAlg 80 [[97], [98]] [97]).confidence) =
          some w →
        (mkRow Alg.ratioAlg 80 [[97], [98]] [97]).bestMatch =
          if (mkRow Alg.ratioAlg 80 [[97], [98]] [97]).confidence = 0 ∨
              w = [] then Cell.noMatch
          else Cell.item w)) :=
  ⟨by decide,
   claim_c1_best_match Alg.ratioAlg [97] [[97], [98]] 80 (by decide)⟩

/-- Claim C10: when every pool item of a non-empty pool scores 0 against
the query, the produced row reports the sentinel (and confidence 0):
no pool item is ever reported with score 0, because the search only
records a target when its score strictly exceeds the running best,
initialized to 0. -/
theorem claim_c10_all_zero_sentinel (alg : Alg) (q : List Nat)
    (pool : List (List Nat)) (thr : Nat) (hp : pool ≠ [])
    (h0 : ∀ t ∈ pool, score alg q t = 0) :
    (mkRow alg thr pool q).bestMatch = Cell.noMatch ∧
    (mkRow alg thr pool q).confidence = 0 := by
  have hsnd : (pool.foldl (bestStep (score alg q)) (none, 0)).2 = 0 := by
    rcases bestFold_snd_cases (score alg q) pool (none, 0) with h | h
    · exact h
    · rcases h with ⟨t, ht, hgt⟩
      rw [← hgt]
      exact h0 t ht
  have hid := bestFold_id_of_snd_eq (score alg q) pool (none, 0) hsnd
  constructor
  · have hb : (mkRow alg thr pool q).bestMatch =
        displayCell (pool.foldl (bestStep (score alg q)) (none, 0)).1 := rfl
    rw [hb, hid]
    rfl
  · have hc : (mkRow alg thr pool q).confidence =
        (pool.foldl (bestStep (score alg q)) (none, 0)).2 := rfl
    rw [hc, hsnd]

/-- Claim C10, witness: the single-item pool containing b scores 0
against the query a, and the produced row carries the sentinel. -/
theorem claim_c10_witness :
    (([[98]] : List (List Nat)) ≠ [] ∧
      (∀ t ∈ ([[98]] : List (List Nat)), score Alg.ratioAlg [97] t = 0)) ∧
    ((mkRow Alg.ratioAlg 80 [[98]] [97]).bestMatch = Cell.noMatch ∧
     (mkRow Alg.ratioAlg 80 [[98]] [97]).confidence = 0) :=
  ⟨⟨by decide, by
      intro t ht
      have ht2 : t = [98] := by simpa using ht
      rw [ht2]
      exact score_one_char_mismatch⟩,
   claim_c10_all_zero_sentinel Alg.ratioAlg [97] [[98]] 80 (by decide)
     (by
      intro t ht
      have ht2 : t = [98] := by simpa using ht
      rw [ht2]
      exact score_one_char_mismatch)⟩

/-- Claim C5, amended: when there is at least one query, the reported
mean equals the arithmetic mean of the per-query best scores; when the
query sequence is empty no mean is produced (the summary lookup on the
empty result table fails), rather than 0. -/
theorem claim_c5_mean (alg : Alg) (queries pool : List (List Nat))
    (thr : Nat) (hq : queries ≠ []) :
    summaryMean (runMatch alg queries pool thr) =
      some ((queries.map
          (fun q => (((pool.foldl (bestStep (score alg q)) (none, 0)).2 : Nat)
            : ℚ))).sum /
        (queries.length : ℚ)) := by
  have hne : (runMatch alg queries pool thr).isEmpty = false := by
    cases queries with
    | nil => exact absurd rfl hq
    | cons q qs => simp [runMatch]
  have hlen : (runMatch alg queries pool thr).length = queries.length := by
    simp [runMatch]
  simp only [summaryMean, hne, Bool.false_eq_true, if_false, hlen]
  congr 1
  congr 1
  simp only [runMatch, List.map_map]
  rfl

/-- Claim C5, counterexample: with an empty query sequence the summary
produces no mean at all, in particular not the mean 0 the claim
demands. -/
theorem claim_c5_counterexample :
    summaryMean (runMatch Alg.ratioAlg [] [[97]] 80) ≠ some 0 := by
  simp [runMatch, summaryMean]

/-- Claim C5, witness: the amended claim instantiated at two queries
over the empty pool. -/
theorem claim_c5_witness :
    ([[97], [98]] ≠ ([] : List (List Nat))) ∧
    summaryMean (runMatch Alg.ratioAlg [[97], [98]] [] 50) =
      some ((([[97], [98]] : List (List Nat)).map
          (fun q => ((([].foldl (bestStep (score Alg.ratioAlg q))
            (none, 0)).2 : Nat) : ℚ))).sum /
        (([[97], [98]] : List (List Nat)).length : ℚ)) :=
  ⟨by decide, claim_c5_mean Alg.ratioAlg [[97], [98]] [] 50 (by decide)⟩
